import Mathlib

/-!
Verification of the ascii_drawer rendering pipeline.

Shallow embedding of `src/main.rs`: `f32` values are modelled as `ℚ`
(all values exercised here are small and exactly representable),
`HashMap<(i32, i32), char>` as an association list over `ℤ × ℤ` with
unique keys, and each Rust method as a Lean function on the
corresponding structure.
-/

set_option autoImplicit false
set_option maxRecDepth 100000

namespace AsciiDrawerModel

/-- Rust `f32::round`: round half away from zero, as a map `ℚ → ℤ`. -/
def roundHalfAway (q : ℚ) : ℤ :=
  if 0 ≤ q then ⌊q + 1/2⌋ else ⌈q - 1/2⌉

/-- Model of `struct Vec2 { x: f32, y: f32 }`. -/
structure Vec2 where
  x : ℚ
  y : ℚ
  deriving DecidableEq, Repr

/-- Component-wise product, modelling `impl Mul<Vec2> for Vec2`. -/
def Vec2.mul (a b : Vec2) : Vec2 :=
  ⟨a.x * b.x, a.y * b.y⟩

/-- Model of `AsciiVec2Ext::to_string` for `Vec2`:
`format!("({}, {})", self.x.round() as i32, self.y.round() as i32)`. -/
def Vec2.label (v : Vec2) : String :=
  "(" ++ toString (roundHalfAway v.x) ++ ", " ++ toString (roundHalfAway v.y) ++ ")"

/-- Model of `pub struct AABB` with its four `f32` bounds. -/
structure AABB where
  x_min : ℚ
  x_max : ℚ
  y_min : ℚ
  y_max : ℚ
  deriving DecidableEq, Repr

/-- Rust `AABB::default()`: all four bounds zero. -/
def AABB.default : AABB := ⟨0, 0, 0, 0⟩

/-- Model of `AABB::include_point`: each bound is widened by the four
conditional assignments of the source. -/
def AABB.include_point (b : AABB) (p : Vec2) : AABB :=
  { x_min := if p.x < b.x_min then p.x else b.x_min
    x_max := if p.x > b.x_max then p.x else b.x_max
    y_min := if p.y < b.y_min then p.y else b.y_min
    y_max := if p.y > b.y_max then p.y else b.y_max }

/-- Cell coordinates: keys of the character buffer, `(i32, i32)` in the source. -/
abbrev Cell := ℤ × ℤ

/-- The sparse character buffer: `HashMap<(i32, i32), char>` modelled as an
association list with unique keys; entry order stands for the map's
(irrelevant) iteration order. -/
abbrev Buffer := List (Cell × Char)

/-- Model of `HashMap::insert`: replace the value at an existing key in
place, otherwise append the new entry. -/
def bufInsert (k : Cell) (c : Char) : Buffer → Buffer
  | [] => [(k, c)]
  | e :: rest => if e.1 = k then (k, c) :: rest else e :: bufInsert k c rest

/-- Model of `HashMap::get`: value at a key, if present. -/
def bufLookup (k : Cell) : Buffer → Option Char
  | [] => none
  | e :: rest => if e.1 = k then some e.2 else bufLookup k rest

/-- Model of `struct AsciiCanvas { buffer, bounds }`. -/
structure AsciiCanvas where
  buffer : Buffer
  bounds : AABB
  deriving DecidableEq, Repr

namespace AsciiCanvas

/-- Model of `AsciiCanvas::new()`. -/
def new : AsciiCanvas := ⟨[], AABB.default⟩

/-- One buffer write together with its bounding-box update, the pair of
statements `self.buffer.insert((x, y), ch); self.bounds.include_point(...)`
that the source performs for every written cell. -/
def put (c : AsciiCanvas) (k : Cell) (ch : Char) : AsciiCanvas :=
  { buffer := bufInsert k ch c.buffer
    bounds := c.bounds.include_point ⟨(k.1 : ℚ), (k.2 : ℚ)⟩ }

/-- The inclusive integer range `a..=b` of a Rust `for` loop, as a list
(empty when `b < a`). -/
def rangeClosed (a b : ℤ) : List ℤ :=
  (List.range (b + 1 - a).toNat).map (fun n => a + (n : ℤ))

/-- The first loop of `AsciiCanvas::rect`: for `x in -half_width..=half_width`,
write a dash on the top and the bottom row. -/
def rectHLoop (c : AsciiCanvas) (half_width half_height center_x center_y : ℤ) :
    AsciiCanvas :=
  (rangeClosed (-half_width) half_width).foldl
    (fun acc x =>
      (acc.put (center_x + x, center_y - half_height) '-').put
        (center_x + x, center_y + half_height) '-') c

/-- The second loop of `AsciiCanvas::rect`: for `y in -half_height..=half_height`,
write a bar on the left and the right column. -/
def rectVLoop (c : AsciiCanvas) (half_width half_height center_x center_y : ℤ) :
    AsciiCanvas :=
  (rangeClosed (-half_height) half_height).foldl
    (fun acc y =>
      (acc.put (center_x - half_width, center_y + y) '|').put
        (center_x + half_width, center_y + y) '|') c

/-- Model of `AsciiCanvas::rect`: half-extents `ceil(size/2)`, rounded
center, the horizontal dash loop followed by the vertical bar loop. -/
def rect (c : AsciiCanvas) (center size : Vec2) : AsciiCanvas :=
  let half_width := ⌈size.x / 2⌉
  let half_height := ⌈size.y / 2⌉
  let center_x := roundHalfAway center.x
  let center_y := roundHalfAway center.y
  rectVLoop (rectHLoop c half_width half_height center_x center_y)
    half_width half_height center_x center_y

/-- The loop body of `AsciiCanvas::text`: write the characters of `t`
left to right starting at cell `(x, y)`. -/
def putRun (c : AsciiCanvas) (x y : ℤ) : List Char → AsciiCanvas
  | [] => c
  | ch :: rest => putRun (c.put (x, y) ch) (x + 1) y rest

/-- Model of `AsciiCanvas::text`: start cell
`(position.x.round() - text.len()/2, position.y.round())`, then the
enumerated write loop (`putRun`). Text is a list of characters; its
length models `text.len()` (identical for the ASCII strings the program
draws). -/
def text (c : AsciiCanvas) (position : Vec2) (t : List Char) : AsciiCanvas :=
  let start_x := roundHalfAway position.x - (t.length / 2 : ℕ)
  let start_y := roundHalfAway position.y
  putRun c start_x start_y t

/-- Write one buffered character into the dense grid:
`canvas[canvas_y][canvas_x] = ch` with `usize` indices. -/
def setCell (g : List (List Char)) (r cIdx : ℕ) (ch : Char) : List (List Char) :=
  g.set r ((g.getD r []).set cIdx ch)

/-- The dense grid built by `AsciiCanvas::draw` before printing: a
`height × width` grid of spaces, with every buffered cell copied in at
offset `(x - floor(x_min), y - floor(y_min))`. -/
def grid (c : AsciiCanvas) : List (List Char) :=
  let width := (⌈c.bounds.x_max - c.bounds.x_min⌉ + 1).toNat
  let height := (⌈c.bounds.y_max - c.bounds.y_min⌉ + 1).toNat
  let offset_x := ⌊c.bounds.x_min⌋
  let offset_y := ⌊c.bounds.y_min⌋
  c.buffer.foldl
    (fun g e => setCell g (e.1.2 - offset_y).toNat (e.1.1 - offset_x).toNat e.2)
    (List.replicate height (List.replicate width ' '))

/-- The lines printed by `AsciiCanvas::draw`: rows of the dense grid in
reverse order (highest `y` first), each row as a string. -/
def drawRows (c : AsciiCanvas) : List String :=
  c.grid.reverse.map (fun row => String.mk row)

/-- Model of `AsciiCanvas::draw`: the full text written to standard
output, one line (with trailing newline) per grid row. -/
def draw (c : AsciiCanvas) : String :=
  String.join (c.drawRows.map (fun row => row ++ "\n"))

end AsciiCanvas

/-- Model of `struct AsciiDrawer { canvas, scale }`. -/
structure AsciiDrawer where
  canvas : AsciiCanvas
  scale : Vec2
  deriving DecidableEq, Repr

namespace AsciiDrawer

/-- Model of `AsciiDrawer::new`. -/
def new (scale : Vec2) : AsciiDrawer :=
  ⟨AsciiCanvas.new, scale⟩

/-- Model of `AsciiDrawer::rect`: scale center and size component-wise by
`self.scale`, then delegate to the canvas. -/
def rect (d : AsciiDrawer) (center size : Vec2) : AsciiDrawer :=
  { d with canvas := d.canvas.rect (center.mul d.scale) (size.mul d.scale) }

/-- Model of `AsciiDrawer::text`: scale the position only, then delegate. -/
def text (d : AsciiDrawer) (position : Vec2) (t : List Char) : AsciiDrawer :=
  { d with canvas := d.canvas.text (position.mul d.scale) t }

end AsciiDrawer

/-- Canvas states reachable from `AsciiCanvas::new()` by any sequence of
`rect` and `text` operations. -/
inductive Reachable : AsciiCanvas → Prop
  | new : Reachable AsciiCanvas.new
  | rect (c : AsciiCanvas) (center size : Vec2) :
      Reachable c → Reachable (c.rect center size)
  | text (c : AsciiCanvas) (position : Vec2) (t : List Char) :
      Reachable c → Reachable (c.text position t)

/-- A bounding box whose four bounds are integers cast to `ℚ`. -/
def IsIntBox (b : AABB) : Prop :=
  (∃ n : ℤ, b.x_min = (n : ℚ)) ∧ (∃ n : ℤ, b.x_max = (n : ℚ)) ∧
  (∃ n : ℤ, b.y_min = (n : ℚ)) ∧ (∃ n : ℤ, b.y_max = (n : ℚ))

/-- Every buffered key lies inside the canvas's bounding box. -/
def InBounds (c : AsciiCanvas) : Prop :=
  ∀ e ∈ c.buffer,
    c.bounds.x_min ≤ (e.1.1 : ℚ) ∧ (e.1.1 : ℚ) ≤ c.bounds.x_max ∧
    c.bounds.y_min ≤ (e.1.2 : ℚ) ∧ (e.1.2 : ℚ) ≤ c.bounds.y_max

/-- The canvas invariant: integer-valued bounds containing every buffered
key. -/
def CanvasInv (c : AsciiCanvas) : Prop := IsIntBox c.bounds ∧ InBounds c

/-- Helper: the four bounds produced by `include_point` are exactly the
min/max of the old bound and the new coordinate. -/
theorem include_point_eq (b : AABB) (p : Vec2) :
    (b.include_point p).x_min = min b.x_min p.x ∧
    (b.include_point p).x_max = max b.x_max p.x ∧
    (b.include_point p).y_min = min b.y_min p.y ∧
    (b.include_point p).y_max = max b.y_max p.y := by
  refine ⟨?_, ?_, ?_, ?_⟩ <;>
    simp only [AABB.include_point, min_def, max_def] <;> split_ifs <;> linarith

/-- C7: `include_point` sets each bound to exactly the min/max of the old
bound and the point's coordinate, and consequently every call leaves
`x_min`/`y_min` non-increasing and `x_max`/`y_max` non-decreasing. -/
theorem include_point_exact_minmax_and_monotone (b : AABB) (p : Vec2) :
    (b.include_point p).x_min = min b.x_min p.x ∧
    (b.include_point p).x_max = max b.x_max p.x ∧
    (b.include_point p).y_min = min b.y_min p.y ∧
    (b.include_point p).y_max = max b.y_max p.y ∧
    (b.include_point p).x_min ≤ b.x_min ∧
    (b.include_point p).y_min ≤ b.y_min ∧
    b.x_max ≤ (b.include_point p).x_max ∧
    b.y_max ≤ (b.include_point p).y_max := by
  obtain ⟨h1, h2, h3, h4⟩ := include_point_eq b p
  exact ⟨h1, h2, h3, h4, h1 ▸ min_le_left _ _, h3 ▸ min_le_left _ _,
    h2 ▸ le_max_left _ _, h4 ▸ le_max_left _ _⟩

/-- C5: the `Vec2` display string is `"(round(x), round(y))"` with
round-half-away-from-zero applied to each axis independently; for
`Vec2(3.4, -2.6)` it is `"(3, -3)"`. -/
theorem vec2_label_round_scenario :
    Vec2.label ⟨34/10, -26/10⟩ = "(3, -3)" ∧
    roundHalfAway (34/10 : ℚ) = 3 ∧ roundHalfAway (-26/10 : ℚ) = -3 := by
  with_unfolding_all decide

/-- C9: drawing an empty text leaves the canvas (buffer and bounding box)
exactly unchanged; in particular the rounded position is not folded into
the bounding box. -/
theorem text_empty_noop (c : AsciiCanvas) (p : Vec2) : c.text p [] = c := rfl

/-- C2 counterexample: for a canvas whose only write is a single `'X'` at
cell `(5, 5)`, the rendered output does not have exactly one line (it has
six, because the bounding box starts at the origin). -/
theorem single_point_render_counterexample :
    ¬ ((AsciiCanvas.new.text ⟨5, 5⟩ ['X']).drawRows.length = 1) := by
  with_unfolding_all decide

/-- C2 amended: for a canvas whose only write is a single `'X'` at cell
`(5, 5)`, the default bounding box `(0, 0, 0, 0)` pads the grid back to
the origin: render yields six lines of six characters, with the glyph in
the last column of the first (topmost) line. -/
theorem single_point_render_grid :
    (AsciiCanvas.new.text ⟨5, 5⟩ ['X']).drawRows =
      ["     X", "      ", "      ", "      ", "      ", "      "] ∧
    (AsciiCanvas.new.text ⟨5, 5⟩ ['X']).draw =
      "     X\n      \n      \n      \n      \n      \n" := by
  with_unfolding_all decide

/-- C3: `rect(center=(0,0), size=(4,2))` ends with bars at every cell with
`x ∈ {-2,2}`, `y ∈ [-1,1]` (corners included, because the vertical loop
runs second), dashes at the remaining top/bottom-row cells, and the
horizontal loop alone had written dashes at every `x ∈ [-2,2]`,
`y ∈ {-1,1}` (corners included). -/
theorem rect_outline_scenario :
    (∀ y ∈ AsciiCanvas.rangeClosed (-1) 1, ∀ x ∈ ([-2, 2] : List ℤ),
      bufLookup (x, y) (AsciiCanvas.new.rect ⟨0, 0⟩ ⟨4, 2⟩).buffer = some '|') ∧
    (∀ y ∈ ([-1, 1] : List ℤ), ∀ x ∈ AsciiCanvas.rangeClosed (-1) 1,
      bufLookup (x, y) (AsciiCanvas.new.rect ⟨0, 0⟩ ⟨4, 2⟩).buffer = some '-') ∧
    (∀ y ∈ ([-1, 1] : List ℤ), ∀ x ∈ AsciiCanvas.rangeClosed (-2) 2,
      bufLookup (x, y) (AsciiCanvas.rectHLoop AsciiCanvas.new 2 1 0 0).buffer
        = some '-') ∧
    AsciiCanvas.new.rect ⟨0, 0⟩ ⟨4, 2⟩
      = AsciiCanvas.rectVLoop (AsciiCanvas.rectHLoop AsciiCanvas.new 2 1 0 0) 2 1 0 0 := by
  with_unfolding_all decide

/-- Witness for C3 at a corner: cell `(2, 1)` holds a bar in the final
buffer. -/
theorem rect_outline_scenario_witness :
    bufLookup (2, 1) (AsciiCanvas.new.rect ⟨0, 0⟩ ⟨4, 2⟩).buffer = some '|' :=
  rect_outline_scenario.1 1 (by with_unfolding_all decide) 2
    (by with_unfolding_all decide)

/-- C6: a drawer with uniform scale `(5, 5)` given `rect(center=(-1,0),
size=(1,1))` delegates to the canvas with scaled center `(-5, 0)` and
scaled size `(5, 5)`, and the canvas call runs its loops with integer
half-extents `ceil(5/2) = 3` on both axes around center `(-5, 0)`. -/
theorem drawer_rect_scaled_scenario :
    ((AsciiDrawer.new ⟨5, 5⟩).rect ⟨-1, 0⟩ ⟨1, 1⟩).canvas
      = AsciiCanvas.new.rect ⟨-5, 0⟩ ⟨5, 5⟩ ∧
    Vec2.mul ⟨-1, 0⟩ ⟨5, 5⟩ = ⟨-5, 0⟩ ∧
    Vec2.mul ⟨1, 1⟩ ⟨5, 5⟩ = ⟨5, 5⟩ ∧
    (⌈(5 : ℚ) / 2⌉ : ℤ) = 3 ∧
    AsciiCanvas.new.rect ⟨-5, 0⟩ ⟨5, 5⟩
      = AsciiCanvas.rectVLoop (AsciiCanvas.rectHLoop AsciiCanvas.new 3 3 (-5) 0)
          3 3 (-5) 0 := by
  with_unfolding_all decide

/-- Helper: looking up the key just inserted returns the inserted value. -/
theorem bufLookup_bufInsert_self (k : Cell) (ch : Char) (buf : Buffer) :
    bufLookup k (bufInsert k ch buf) = some ch := by
  induction buf with
  | nil => simp [bufInsert, bufLookup]
  | cons e rest ih =>
    by_cases h : e.1 = k
    · simp [bufInsert, bufLookup, h]
    · simp [bufInsert, bufLookup, h, ih]

/-- Helper: inserting at one key leaves lookups at other keys unchanged. -/
theorem bufLookup_bufInsert_ne (k k' : Cell) (ch : Char) (buf : Buffer)
    (h : k' ≠ k) :
    bufLookup k' (bufInsert k ch buf) = bufLookup k' buf := by
  induction buf with
  | nil => simp [bufInsert, bufLookup, Ne.symm h]
  | cons e rest ih =>
    by_cases he : e.1 = k
    · have hne : e.1 ≠ k' := by rw [he]; exact Ne.symm h
      simp [bufInsert, bufLookup, he, Ne.symm h, hne]
    · by_cases he2 : e.1 = k'
      · simp [bufInsert, bufLookup, he, he2, h]
      · simp [bufInsert, bufLookup, he, he2, ih]

/-- Helper: the text write loop starting at column `x` does not touch any
cell strictly to the left of `x` or on a different row. -/
theorem putRun_lookup_away (t : List Char) (c : AsciiCanvas) (x y x' y' : ℤ)
    (h : x' < x ∨ y' ≠ y) :
    bufLookup (x', y') (AsciiCanvas.putRun c x y t).buffer
      = bufLookup (x', y') c.buffer := by
  induction t generalizing c x with
  | nil => rfl
  | cons ch rest ih =>
    rw [AsciiCanvas.putRun]
    have hstep : x' < x + 1 ∨ y' ≠ y := by
      rcases h with h | h
      · exact Or.inl (by omega)
      · exact Or.inr h
    rw [ih (c.put (x, y) ch) (x + 1) hstep]
    refine bufLookup_bufInsert_ne (x, y) (x', y') ch c.buffer ?_
    rcases h with h | h
    · intro he
      rw [Prod.mk.injEq] at he
      omega
    · intro he
      rw [Prod.mk.injEq] at he
      exact h he.2

/-- Helper: the text write loop puts character `i` of `t` at column
`x + i` of row `y`. -/
theorem putRun_lookup (t : List Char) (c : AsciiCanvas) (x y : ℤ) (i : ℕ)
    (h : i < t.length) :
    bufLookup (x + (i : ℤ), y) (AsciiCanvas.putRun c x y t).buffer
      = some (t.get ⟨i, h⟩) := by
  induction t generalizing c x i with
  | nil => simp at h
  | cons ch rest ih =>
    cases i with
    | zero =>
      rw [AsciiCanvas.putRun,
        putRun_lookup_away rest (c.put (x, y) ch) (x + 1) y (x + ((0 : ℕ) : ℤ)) y
          (Or.inl (by omega))]
      have e : (x + ((0 : ℕ) : ℤ), y) = (x, y) := by norm_num
      rw [e]
      exact bufLookup_bufInsert_self (x, y) ch c.buffer
    | succ j =>
      have hj : j < rest.length := by simpa using Nat.lt_of_succ_lt_succ h
      have hx := ih (c.put (x, y) ch) (x + 1) j hj
      rw [AsciiCanvas.putRun]
      have e : (x + ((j + 1 : ℕ) : ℤ), y) = ((x + 1) + (j : ℤ), y) := by
        rw [Prod.mk.injEq]
        constructor
        · push_cast
          ring
        · rfl
      rw [e, hx]
      rfl

/-- C4: the text operation writes character `i` of `t` at cell
`(round(p.x) - floor(len(t)/2) + i, round(p.y))`, on the single row
`round(p.y)`. -/
theorem text_places_each_char (c : AsciiCanvas) (p : Vec2) (t : List Char)
    (i : ℕ) (h : i < t.length) :
    bufLookup (roundHalfAway p.x - ((t.length / 2 : ℕ) : ℤ) + (i : ℤ),
        roundHalfAway p.y) ((c.text p t).buffer)
      = some (t.get ⟨i, h⟩) :=
  putRun_lookup t c _ _ i h

/-- Witness for C4: `text(position=(0,0), "AB")` places `'A'` at cell
`(-1, 0)`. -/
theorem text_places_each_char_witness :
    bufLookup (-1, 0) ((AsciiCanvas.new.text ⟨0, 0⟩ ['A', 'B']).buffer)
      = some 'A' := by
  have e : ((-1 : ℤ), (0 : ℤ))
      = (roundHalfAway ((⟨0, 0⟩ : Vec2)).x - ((['A', 'B'].length / 2 : ℕ) : ℤ)
          + ((0 : ℕ) : ℤ), roundHalfAway ((⟨0, 0⟩ : Vec2)).y) := by
    with_unfolding_all decide
  rw [e]
  exact text_places_each_char AsciiCanvas.new ⟨0, 0⟩ ['A', 'B'] 0 (by decide)

/-- Helper: an entry of `bufInsert k ch buf` is either the new entry or an
entry of `buf`. -/
theorem mem_bufInsert (k : Cell) (ch : Char) (buf : Buffer) (e : Cell × Char)
    (h : e ∈ bufInsert k ch buf) : e = (k, ch) ∨ e ∈ buf := by
  induction buf with
  | nil => simpa [bufInsert] using h
  | cons e0 rest ih =>
    by_cases he : e0.1 = k
    · rw [bufInsert, if_pos he] at h
      rcases List.mem_cons.mp h with h | h
      · exact Or.inl h
      · exact Or.inr (List.mem_cons_of_mem e0 h)
    · rw [bufInsert, if_neg he] at h
      rcases List.mem_cons.mp h with h | h
      · exact Or.inr (h ▸ List.mem_cons_self e0 rest)
      · rcases ih h with h | h
        · exact Or.inl h
        · exact Or.inr (List.mem_cons_of_mem e0 h)

/-- Helper: one paired buffer-write/bounds-update preserves the canvas
invariant. -/
theorem canvasInv_put (c : AsciiCanvas) (k : Cell) (ch : Char)
    (h : CanvasInv c) : CanvasInv (c.put k ch) := by
  obtain ⟨⟨⟨a, ha⟩, ⟨b, hb⟩, ⟨d, hd⟩, ⟨f, hf⟩⟩, hin⟩ := h
  obtain ⟨h1, h2, h3, h4⟩ :=
    include_point_eq c.bounds ⟨(k.1 : ℚ), (k.2 : ℚ)⟩
  have hbounds : (c.put k ch).bounds
      = c.bounds.include_point ⟨(k.1 : ℚ), (k.2 : ℚ)⟩ := rfl
  constructor
  · refine ⟨⟨min a k.1, ?_⟩, ⟨max b k.1, ?_⟩, ⟨min d k.2, ?_⟩, ⟨max f k.2, ?_⟩⟩
    · rw [hbounds, h1, ha, Int.cast_min]
    · rw [hbounds, h2, hb, Int.cast_max]
    · rw [hbounds, h3, hd, Int.cast_min]
    · rw [hbounds, h4, hf, Int.cast_max]
  · intro e he
    have hemem : e ∈ bufInsert k ch c.buffer := he
    rw [hbounds, h1, h2, h3, h4]
    rcases mem_bufInsert k ch c.buffer e hemem with heq | hold
    · subst heq
      exact ⟨min_le_right _ _, le_max_right _ _, min_le_right _ _,
        le_max_right _ _⟩
    · obtain ⟨g1, g2, g3, g4⟩ := hin e hold
      exact ⟨le_trans (min_le_left _ _) g1, le_trans g2 (le_max_left _ _),
        le_trans (min_le_left _ _) g3, le_trans g4 (le_max_left _ _)⟩

/-- Helper: a fold whose step preserves the canvas invariant preserves it. -/
theorem canvasInv_foldl {α : Type} (f : AsciiCanvas → α → AsciiCanvas)
    (hf : ∀ c a, CanvasInv c → CanvasInv (f c a)) :
    ∀ (l : List α) (c : AsciiCanvas), CanvasInv c → CanvasInv (l.foldl f c) := by
  intro l
  induction l with
  | nil => exact fun c h => h
  | cons a rest ih => exact fun c h => ih (f c a) (hf c a h)

/-- Helper: the horizontal rectangle loop preserves the canvas invariant. -/
theorem canvasInv_rectHLoop (c : AsciiCanvas) (hw hh cx cy : ℤ)
    (h : CanvasInv c) : CanvasInv (c.rectHLoop hw hh cx cy) :=
  canvasInv_foldl _
    (fun _ _ h0 => canvasInv_put _ _ _ (canvasInv_put _ _ _ h0)) _ c h

/-- Helper: the vertical rectangle loop preserves the canvas invariant. -/
theorem canvasInv_rectVLoop (c : AsciiCanvas) (hw hh cx cy : ℤ)
    (h : CanvasInv c) : CanvasInv (c.rectVLoop hw hh cx cy) :=
  canvasInv_foldl _
    (fun _ _ h0 => canvasInv_put _ _ _ (canvasInv_put _ _ _ h0)) _ c h

/-- Helper: the text write loop preserves the canvas invariant. -/
theorem canvasInv_putRun (t : List Char) (c : AsciiCanvas) (x y : ℤ)
    (h : CanvasInv c) : CanvasInv (c.putRun x y t) := by
  induction t generalizing c x with
  | nil => exact h
  | cons ch rest ih => exact ih (c.put (x, y) ch) (x + 1) (canvasInv_put _ _ _ h)

/-- Helper: the empty canvas satisfies the invariant. -/
theorem canvasInv_new : CanvasInv AsciiCanvas.new := by
  constructor
  · refine ⟨⟨0, ?_⟩, ⟨0, ?_⟩, ⟨0, ?_⟩, ⟨0, ?_⟩⟩ <;>
      norm_num [AsciiCanvas.new, AABB.default]
  · intro e he
    simp [AsciiCanvas.new] at he

/-- Helper: every canvas reachable from `new` by `rect` and `text`
operations satisfies the invariant. -/
theorem reachable_canvasInv (c : AsciiCanvas) (h : Reachable c) : CanvasInv c := by
  induction h with
  | new => exact canvasInv_new
  | rect c0 center size _ ih =>
    exact canvasInv_rectVLoop _ _ _ _ _ (canvasInv_rectHLoop _ _ _ _ _ ih)
  | text c0 position t _ ih => exact canvasInv_putRun _ _ _ _ ih

/-- C10: on any reachable canvas the four bounds are integers cast to
`ℚ`, so `ceil(x_max - x_min)` is exactly `x_max - x_min`, `floor(x_min)`
is exactly `x_min`, and the grid width `ceil(x_max - x_min) + 1` is
exactly `x_max - x_min + 1` (symmetrically for `y`). -/
theorem bounds_integer_valued (c : AsciiCanvas) (h : Reachable c) :
    (∃ a b d f : ℤ, c.bounds = ⟨(a : ℚ), (b : ℚ), (d : ℚ), (f : ℚ)⟩) ∧
    ((⌈c.bounds.x_max - c.bounds.x_min⌉ : ℤ) : ℚ)
      = c.bounds.x_max - c.bounds.x_min ∧
    ((⌊c.bounds.x_min⌋ : ℤ) : ℚ) = c.bounds.x_min ∧
    ((⌈c.bounds.y_max - c.bounds.y_min⌉ : ℤ) : ℚ)
      = c.bounds.y_max - c.bounds.y_min ∧
    ((⌊c.bounds.y_min⌋ : ℤ) : ℚ) = c.bounds.y_min ∧
    ((⌈c.bounds.x_max - c.bounds.x_min⌉ + 1 : ℤ) : ℚ)
      = c.bounds.x_max - c.bounds.x_min + 1 ∧
    ((⌈c.bounds.y_max - c.bounds.y_min⌉ + 1 : ℤ) : ℚ)
      = c.bounds.y_max - c.bounds.y_min + 1 := by
  obtain ⟨⟨⟨a, ha⟩, ⟨b, hb⟩, ⟨d, hd⟩, ⟨f, hf⟩⟩, -⟩ := reachable_canvasInv c h
  have hx : ((⌈c.bounds.x_max - c.bounds.x_min⌉ : ℤ) : ℚ)
      = c.bounds.x_max - c.bounds.x_min := by
    rw [ha, hb, ← Int.cast_sub, Int.ceil_intCast]
  have hy : ((⌈c.bounds.y_max - c.bounds.y_min⌉ : ℤ) : ℚ)
      = c.bounds.y_max - c.bounds.y_min := by
    rw [hd, hf, ← Int.cast_sub, Int.ceil_intCast]
  refine ⟨⟨a, b, d, f, ?_⟩, hx, ?_, hy, ?_, ?_, ?_⟩
  · rw [← ha, ← hb, ← hd, ← hf]
  · rw [ha, Int.floor_intCast]
  · rw [hd, Int.floor_intCast]
  · rw [Int.cast_add, Int.cast_one, hx]
  · rw [Int.cast_add, Int.cast_one, hy]

/-- Witness for C10 on the canvas holding a single `'X'` at `(5, 5)`:
its `x_min` is the cast of its own floor. -/
theorem bounds_integer_valued_witness :
    ((⌊(AsciiCanvas.new.text ⟨5, 5⟩ ['X']).bounds.x_min⌋ : ℤ) : ℚ)
      = (AsciiCanvas.new.text ⟨5, 5⟩ ['X']).bounds.x_min :=
  (bounds_integer_valued _ (Reachable.text _ _ _ Reachable.new)).2.2.1

/-- C1: on any reachable canvas, every buffered key lies inside the
bounding box, and its dense-grid index, computed with the offsets and
dimensions of `draw`, is in range on both axes (no clipping). -/
theorem buffer_within_bounds (c : AsciiCanvas) (h : Reachable c) :
    ∀ e ∈ c.buffer,
      c.bounds.x_min ≤ (e.1.1 : ℚ) ∧ (e.1.1 : ℚ) ≤ c.bounds.x_max ∧
      c.bounds.y_min ≤ (e.1.2 : ℚ) ∧ (e.1.2 : ℚ) ≤ c.bounds.y_max ∧
      0 ≤ e.1.1 - ⌊c.bounds.x_min⌋ ∧
      e.1.1 - ⌊c.bounds.x_min⌋ < ⌈c.bounds.x_max - c.bounds.x_min⌉ + 1 ∧
      0 ≤ e.1.2 - ⌊c.bounds.y_min⌋ ∧
      e.1.2 - ⌊c.bounds.y_min⌋ < ⌈c.bounds.y_max - c.bounds.y_min⌉ + 1 := by
  obtain ⟨⟨⟨a, ha⟩, ⟨b, hb⟩, ⟨d, hd⟩, ⟨f, hf⟩⟩, hin⟩ := reachable_canvasInv c h
  intro e he
  obtain ⟨h1, h2, h3, h4⟩ := hin e he
  have hflx : ⌊c.bounds.x_min⌋ = a := by rw [ha]; exact Int.floor_intCast a
  have hfly : ⌊c.bounds.y_min⌋ = d := by rw [hd]; exact Int.floor_intCast d
  have hclx : ⌈c.bounds.x_max - c.bounds.x_min⌉ = b - a := by
    rw [ha, hb, ← Int.cast_sub]; exact Int.ceil_intCast _
  have hcly : ⌈c.bounds.y_max - c.bounds.y_min⌉ = f - d := by
    rw [hd, hf, ← Int.cast_sub]; exact Int.ceil_intCast _
  have hx1 : a ≤ e.1.1 := by rw [ha] at h1; exact_mod_cast h1
  have hx2 : e.1.1 ≤ b := by rw [hb] at h2; exact_mod_cast h2
  have hy1 : d ≤ e.1.2 := by rw [hd] at h3; exact_mod_cast h3
  have hy2 : e.1.2 ≤ f := by rw [hf] at h4; exact_mod_cast h4
  refine ⟨h1, h2, h3, h4, ?_, ?_, ?_, ?_⟩
  · rw [hflx]; omega
  · rw [hflx, hclx]; omega
  · rw [hfly]; omega
  · rw [hfly, hcly]; omega

/-- Witness for C1: the single buffered cell `(5, 5)` of the one-point
canvas lies inside the bounds and its grid index is in range. -/
theorem buffer_within_bounds_witness :
    (AsciiCanvas.new.text ⟨5, 5⟩ ['X']).bounds.x_min ≤ ((5 : ℤ) : ℚ) ∧
    ((5 : ℤ) : ℚ) ≤ (AsciiCanvas.new.text ⟨5, 5⟩ ['X']).bounds.x_max ∧
    (AsciiCanvas.new.text ⟨5, 5⟩ ['X']).bounds.y_min ≤ ((5 : ℤ) : ℚ) ∧
    ((5 : ℤ) : ℚ) ≤ (AsciiCanvas.new.text ⟨5, 5⟩ ['X']).bounds.y_max ∧
    0 ≤ (5 : ℤ) - ⌊(AsciiCanvas.new.text ⟨5, 5⟩ ['X']).bounds.x_min⌋ ∧
    (5 : ℤ) - ⌊(AsciiCanvas.new.text ⟨5, 5⟩ ['X']).bounds.x_min⌋
      < ⌈(AsciiCanvas.new.text ⟨5, 5⟩ ['X']).bounds.x_max
          - (AsciiCanvas.new.text ⟨5, 5⟩ ['X']).bounds.x_min⌉ + 1 ∧
    0 ≤ (5 : ℤ) - ⌊(AsciiCanvas.new.text ⟨5, 5⟩ ['X']).bounds.y_min⌋ ∧
    (5 : ℤ) - ⌊(AsciiCanvas.new.text ⟨5, 5⟩ ['X']).bounds.y_min⌋
      < ⌈(AsciiCanvas.new.text ⟨5, 5⟩ ['X']).bounds.y_max
          - (AsciiCanvas.new.text ⟨5, 5⟩ ['X']).bounds.y_min⌉ + 1 :=
  buffer_within_bounds _ (Reachable.text _ _ _ Reachable.new) ((5, 5), 'X')
    (by with_unfolding_all decide)

/-- Helper: writes to distinct positions of the dense grid commute. -/
theorem setCell_comm (g : List (List Char)) (r1 c1 r2 c2 : ℕ) (a b : Char)
    (h : r1 ≠ r2 ∨ c1 ≠ c2) :
    AsciiCanvas.setCell (AsciiCanvas.setCell g r1 c1 a) r2 c2 b
      = AsciiCanvas.setCell (AsciiCanvas.setCell g r2 c2 b) r1 c1 a := by
  by_cases hr : r1 = r2
  · subst hr
    have hc : c1 ≠ c2 := h.resolve_left (fun hne => hne rfl)
    by_cases hlen : r1 < g.length
    · have e1 : ∀ X : List Char, (g.set r1 X).getD r1 [] = X := by
        intro X
        rw [List.getD_eq_getElem?_getD, List.getElem?_set_self (by simpa using hlen)]
        rfl
      unfold AsciiCanvas.setCell
      rw [e1, e1, List.set_set, List.set_set, List.set_comm _ _ _ hc]
    · have e0 : ∀ (cc : ℕ) (ch : Char), AsciiCanvas.setCell g r1 cc ch = g := by
        intro cc ch
        unfold AsciiCanvas.setCell
        exact List.set_eq_of_length_le (Nat.le_of_not_lt hlen)
      simp only [e0]
  · unfold AsciiCanvas.setCell
    simp only [List.getD_eq_getElem?_getD, List.getElem?_set_ne hr,
      List.getElem?_set_ne (Ne.symm hr)]
    exact List.set_comm _ _ _ hr

/-- Helper: the dense grid depends only on the bounding box and on which
entries the buffer holds, not on their order, when keys are unique and at
or above the grid offsets. -/
theorem grid_perm (c1 c2 : AsciiCanvas) (hb : c1.bounds = c2.bounds)
    (hperm : c1.buffer.Perm c2.buffer)
    (hnodup : (c1.buffer.map Prod.fst).Nodup)
    (hin : ∀ e ∈ c1.buffer,
      ⌊c1.bounds.x_min⌋ ≤ e.1.1 ∧ ⌊c1.bounds.y_min⌋ ≤ e.1.2) :
    c1.grid = c2.grid := by
  have hkeys : ∀ x ∈ c1.buffer, ∀ y ∈ c1.buffer, x ≠ y → x.1 ≠ y.1 := by
    have hp : c1.buffer.Pairwise (fun e1 e2 => e1.1 ≠ e2.1) := by
      simpa [List.Nodup, List.pairwise_map] using hnodup
    intro x hx y hy hxy
    exact hp.forall (fun _ _ hab => Ne.symm hab) hx hy hxy
  simp only [AsciiCanvas.grid]
  rw [← hb]
  refine List.Perm.foldl_eq' hperm ?_ _
  intro x hx y hy z
  by_cases hxy : x = y
  · subst hxy; rfl
  · have hk : x.1 ≠ y.1 := hkeys x hx y hy hxy
    have hk2 : x.1.1 ≠ y.1.1 ∨ x.1.2 ≠ y.1.2 := by
      by_contra hcon
      push_neg at hcon
      exact hk (Prod.ext_iff.mpr hcon)
    obtain ⟨hx1, hx2⟩ := hin x hx
    obtain ⟨hy1, hy2⟩ := hin y hy
    refine setCell_comm _ _ _ _ _ _ _ ?_
    omega

/-- C8: the rendered text is a function of the buffer contents and the
bounding box only: two canvases with equal bounds whose buffers hold the
same entries in any iteration order (keys unique, at or above the grid
offsets) produce byte-identical output, so re-rendering an unmodified
canvas is deterministic. -/
theorem draw_order_independent (c1 c2 : AsciiCanvas) (hb : c1.bounds = c2.bounds)
    (hperm : c1.buffer.Perm c2.buffer)
    (hnodup : (c1.buffer.map Prod.fst).Nodup)
    (hin : ∀ e ∈ c1.buffer,
      ⌊c1.bounds.x_min⌋ ≤ e.1.1 ∧ ⌊c1.bounds.y_min⌋ ≤ e.1.2) :
    c1.draw = c2.draw := by
  unfold AsciiCanvas.draw AsciiCanvas.drawRows
  rw [grid_perm c1 c2 hb hperm hnodup hin]

/-- Witness for C8: two buffers holding the same two entries in opposite
iteration orders render the same string. -/
theorem draw_order_independent_witness :
    AsciiCanvas.draw ⟨[((0, 0), 'A'), ((1, 0), 'B')], ⟨0, 1, 0, 0⟩⟩
      = AsciiCanvas.draw ⟨[((1, 0), 'B'), ((0, 0), 'A')], ⟨0, 1, 0, 0⟩⟩ :=
  draw_order_independent _ _ rfl (List.Perm.swap _ _ _)
    (by with_unfolding_all decide) (by with_unfolding_all decide)
end AsciiDrawerModel
